import Mathlib

/-!
Verification of the trip-expense settlement pipeline
(`src/trip_splitter/logic.py`) against its specification.

Shallow embedding conventions:
* pandas DataFrames become `List`s of structures; row order is list order;
* dates become integers ordered by `≤` (only their ordering matters);
* monetary amounts, FX rates and weights become `ℚ`; the columns the code
  casts with `.astype(int)` become `ℤ`;
* numpy/pandas `.round(0)` is round-half-to-even, embedded as
  `roundHalfEven`;
* code that can raise becomes `Except`/`Option`; a pandas crash from
  casting a non-finite float (NaN or ±inf) to int is the error
  `AllocFailure.intCastingNaN`;
* the `while` loop of `compute_settlement` is embedded with explicit fuel
  (one unit per iteration) together with a completion flag, so that
  termination within a stated number of iterations is itself a statement.
-/

namespace TripSplitter

/-- Row of participants.csv: Name and DefaultWeight (Contact is never read
by the pipeline). -/
structure Participant where
  name : String
  defaultWeight : ℚ
  deriving DecidableEq, Repr

/-- Row of rates.csv: Date, Currency, Rate_to_Base. -/
structure RateRow where
  date : ℤ
  currency : String
  rateToBase : ℚ
  deriving DecidableEq, Repr

/-- Row of expenses.csv before conversion: ExpID, Date, Amount, Currency,
Payer (Description, Category and ReceiptLink are never read by the
pipeline's arithmetic). -/
structure Expense where
  expId : String
  date : ℤ
  amount : ℚ
  currency : String
  payer : String
  deriving DecidableEq, Repr

/-- Expense row after `convert_expenses_to_base`: the same row with the
derived integer column Amount_Base. -/
structure ExpenseB where
  expId : String
  date : ℤ
  amount : ℚ
  currency : String
  payer : String
  amountBase : ℤ
  deriving DecidableEq, Repr

/-- Row of splits.csv after `load_splits` normalisation: ExpID,
Participant, Included (a Bool), WeightOverride (`none` models the blank
produced by `fillna("")`, `some w` models a numeric cell). -/
structure Split where
  expId : String
  participant : String
  included : Bool
  weightOverride : Option ℚ
  deriving DecidableEq, Repr

/-- Row of the allocations table: ExpID, Participant, Share_Base. -/
structure Alloc where
  expId : String
  participant : String
  shareBase : ℤ
  deriving DecidableEq, Repr

/-- Row of the balances table: Participant, Paid_Base, Owed_Base,
Net_Base. -/
structure Balance where
  participant : String
  paidBase : ℤ
  owedBase : ℤ
  netBase : ℤ
  deriving DecidableEq, Repr

/-- Settlement transaction row: From (Payer), To (Receiver), Amount_VND. -/
structure Txn where
  fromPayer : String
  toReceiver : String
  amountVnd : ℤ
  deriving DecidableEq, Repr

/-- numpy/pandas `.round(0)`: round to the nearest integer, ties to the
even integer (banker's rounding). -/
def roundHalfEven (q : ℚ) : ℤ :=
  let f : ℤ := ⌊q⌋
  let frac : ℚ := q - f
  if frac < 1/2 then f
  else if 1/2 < frac then f + 1
  else if f % 2 = 0 then f else f + 1

theorem roundHalfEven_err (q : ℚ) : |(roundHalfEven q : ℚ) - q| ≤ 1/2 := by
  unfold roundHalfEven
  have hfl : (⌊q⌋ : ℚ) ≤ q := Int.floor_le q
  have hfu : q < (⌊q⌋ : ℚ) + 1 := Int.lt_floor_add_one q
  by_cases h1 : q - (⌊q⌋ : ℚ) < 1/2
  · simp only [h1, if_true]
    rw [abs_le]
    constructor <;> linarith
  · by_cases h2 : (1:ℚ)/2 < q - (⌊q⌋ : ℚ)
    · simp only [h1, if_false, h2, if_true]
      rw [abs_le]
      push_cast
      constructor <;> linarith
    · simp only [h1, if_false, h2]
      have heq : q - (⌊q⌋ : ℚ) = 1/2 := le_antisymm (not_lt.mp h2) (not_lt.mp h1)
      by_cases h3 : ⌊q⌋ % 2 = 0 <;> simp only [h3, if_true, if_false] <;>
        rw [abs_le] <;> push_cast <;> constructor <;> linarith

/-- Error raised by `get_rate_on_or_before` when the filtered subset is
empty (a ValueError in the source; the spec names it RateNotFoundError). -/
inductive RateError where
  | rateNotFound (currency : String) (date : ℤ)
  deriving DecidableEq, Repr

/-- Embedding of `get_rate_on_or_before(rates, date, currency, base)`:
return 1.0 for the base currency; otherwise filter rows matching the
currency with Date ≤ date, sort by Date and take the last row's
Rate_to_Base; error when the subset is empty.

pandas `sort_values("Date")` uses numpy's quicksort, whose ordering of
rows with equal Date is deterministic but implementation-defined; the sort
is embedded as an insertion sort on Date.  No theorem below depends on
the relative order of equal-Date rows. -/
def getRateOnOrBefore (rates : List RateRow) (date : ℤ) (currency : String)
    (base : String := "VND") : Except RateError ℚ :=
  if currency = base then .ok 1
  else
    let subset := rates.filter (fun r => r.currency = currency ∧ r.date ≤ date)
    match (subset.insertionSort (fun a b => a.date ≤ b.date)).getLast? with
    | none => .error (.rateNotFound currency date)
    | some r => .ok r.rateToBase

/-- Embedding of `convert_expenses_to_base(expenses, rates, base)`: for
each row in order, Amount_Base = round(Amount * rate) with the rate from
`getRateOnOrBefore`; the first row whose lookup raises aborts the whole
conversion (pandas `.apply` propagates the exception, so no partial
output is produced). -/
def convertExpensesToBase (expenses : List Expense) (rates : List RateRow)
    (base : String := "VND") : Except RateError (List ExpenseB) :=
  match expenses with
  | [] => .ok []
  | e :: es => do
      let r ← getRateOnOrBefore rates e.date e.currency base
      let rest ← convertExpensesToBase es rates base
      return { expId := e.expId, date := e.date, amount := e.amount,
               currency := e.currency, payer := e.payer,
               amountBase := roundHalfEven (e.amount * r) } :: rest

/-- Dictionary `participants.set_index("Name")["DefaultWeight"].to_dict()`:
with duplicate names the later row overwrites the earlier, so lookup finds
the last occurrence. -/
def lookupDefaultWeight (ps : List Participant) (name : String) : Option ℚ :=
  (ps.reverse.find? (fun p => p.name = name)).map (·.defaultWeight)

/-- Effective weight of a split row (`resolve_weight` in the source):
0.0 when not Included; the WeightOverride when the cell is truthy (a
nonzero float — the float 0.0 is falsy in Python, so an override of 0
falls through to the default); otherwise the participant's DefaultWeight,
defaulting to 1.0 for an unknown participant. -/
def useWeight (ps : List Participant) (s : Split) : ℚ :=
  if s.included then
    match s.weightOverride with
    | some w => if w = 0 then (lookupDefaultWeight ps s.participant).getD 1 else w
    | none => (lookupDefaultWeight ps s.participant).getD 1
  else 0

/-- Amount_Base joined onto a split row
(`expenses.set_index("ExpID")["Amount_Base"]` followed by
`s.join(exp_base, on="ExpID")`): `none` models the NaN a failed join
leaves behind.  ExpID is a unique key per the data model, so `find?`
suffices. -/
def expenseAmountBase (es : List ExpenseB) (expId : String) : Option ℤ :=
  (es.find? (fun e => e.expId = expId)).map (·.amountBase)

/-- Per-expense weight sum
(`s.groupby("ExpID")["UseWeight"].transform("sum")`): the sum of effective
weights over every split row sharing the ExpID. -/
def weightSum (ps : List Participant) (splits : List Split) (expId : String) : ℚ :=
  ((splits.filter (fun s => s.expId = expId)).map (useWeight ps)).sum

/-- Share_Base of one split row,
`(s["Amount_Base"] * s["UseWeight"] / weight_sums).round(0)`: `none` when
the float value is non-finite — either the Amount_Base join left a NaN,
or the weight sum is 0 and the division yields NaN (0/0) or ±inf.  The
subsequent `.astype(int)` raises on any `none`. -/
def shareBaseOf (es : List ExpenseB) (ps : List Participant)
    (splits : List Split) (s : Split) : Option ℤ :=
  match expenseAmountBase es s.expId with
  | none => none
  | some ab =>
      let ws := weightSum ps splits s.expId
      if ws = 0 then none
      else some (roundHalfEven ((ab : ℚ) * useWeight ps s / ws))

/-- Failure mode of `compute_allocations`: pandas raises
IntCastingNaNError when `.astype(int)` meets a non-finite Share_Base.
The source contains no explicit `weight_sum == 0` check and no
AllocationError; this incidental cast error is the only way the stage
fails. -/
inductive AllocFailure where
  | intCastingNaN
  deriving DecidableEq, Repr

/-- Embedding of `compute_allocations(expenses, splits, participants)`:
resolve every split's effective weight, join Amount_Base, compute the
whole Share_Base column, cast it to int (one non-finite entry anywhere in
the column aborts the stage), then keep the rows with positive
UseWeight. -/
def computeAllocations (es : List ExpenseB) (splits : List Split)
    (ps : List Participant) : Except AllocFailure (List Alloc) :=
  let shares := splits.map (fun s => (s, shareBaseOf es ps splits s))
  if shares.all (fun r => r.2.isSome) then
    .ok ((shares.filter (fun r => 0 < useWeight ps r.1)).filterMap
      (fun r => r.2.map (fun sb =>
        { expId := r.1.expId, participant := r.1.participant, shareBase := sb })))
  else .error .intCastingNaN

/-- Result of a pandas `groupby(key)[col].sum()`: one (key, sum) pair per
distinct key value, the sum taken over all rows carrying that key. -/
def groupbySum {α : Type} (key : α → String) (val : α → ℤ) (rows : List α) :
    List (String × ℤ) :=
  ((rows.map key).dedup).map
    (fun n => (n, ((rows.filter (fun r => key r = n)).map val).sum))

/-- Embedding of `compute_balances(expenses, allocations, participants)`:
group paid amounts by Payer and owed amounts by Participant, left-join
both onto the roster, `fillna(0)`, and set Net_Base = Paid_Base -
Owed_Base (the final `.round(0).astype(int)` is the identity on these
integers). -/
def computeBalances (es : List ExpenseB) (allocs : List Alloc)
    (ps : List Participant) : List Balance :=
  let paid := groupbySum (·.payer) (·.amountBase) es
  let owed := groupbySum (·.participant) (·.shareBase) allocs
  ps.map (fun p =>
    let pb := (paid.lookup p.name).getD 0
    let ob := (owed.lookup p.name).getD 0
    { participant := p.name, paidBase := pb, owedBase := ob, netBase := pb - ob })

/-- One iteration budget per pass of the `while` loop of
`compute_settlement`.  The state is the suffix of the debtors list from
cursor `i` on and the suffix of the creditors list from cursor `j` on;
in-place updates `debtors.at[i] += pay` / `creditors.at[j] -= pay` become
replacing the head.  Returns the transactions emitted and `true` when the
loop exited (a cursor passed the end of its list) before the fuel ran
out; `false` models the loop still running after that many iterations. -/
def settleLoop (eps : ℤ) : Nat → List Balance → List Balance → List Txn × Bool
  | _, [], _ => ([], true)
  | _, _ :: _, [] => ([], true)
  | 0, _ :: _, _ :: _ => ([], false)
  | fuel + 1, d :: ds, c :: cs =>
      let pay := min (-d.netBase) c.netBase
      let emit := pay > eps
      let dNet := if emit then d.netBase + pay else d.netBase
      let cNet := if emit then c.netBase - pay else c.netBase
      let ts : List Txn :=
        if emit then [{ fromPayer := d.participant, toReceiver := c.participant,
                        amountVnd := pay }] else []
      let ds' := if |dNet| ≤ eps then ds else { d with netBase := dNet } :: ds
      let cs' := if |cNet| ≤ eps then cs else { c with netBase := cNet } :: cs
      let rec' := settleLoop eps fuel ds' cs'
      (ts ++ rec'.1, rec'.2)

/-- Embedding of `compute_settlement(balances, eps)`: partition the rows
into creditors (Net_Base > 0) and debtors (Net_Base < 0), sort creditors
descending and debtors ascending by Net_Base, and walk both lists with
the two-cursor loop.  The fuel is len(debtors) + len(creditors), the
iteration bound the spec guarantees; the second component is `true` iff
the loop finished within that bound (proved below for every eps ≥ 0, and
refuted for eps = -1).  pandas `sort_values` uses numpy's quicksort,
whose ordering of rows with equal Net_Base is implementation-defined; the
sort is embedded as an insertion sort, and no theorem below depends on
the relative order of equal-key rows. -/
def computeSettlement (balances : List Balance) (eps : ℤ := 1) :
    List Txn × Bool :=
  let creditors := (balances.filter (fun b => 0 < b.netBase)).insertionSort
    (fun a b => b.netBase ≤ a.netBase)
  let debtors := (balances.filter (fun b => b.netBase < 0)).insertionSort
    (fun a b => a.netBase ≤ b.netBase)
  settleLoop eps (debtors.length + creditors.length) debtors creditors

/-- Total amount sent by `name` as payer across a transaction list. -/
def sentBy (name : String) (ts : List Txn) : ℤ :=
  ((ts.filter (fun t => t.fromPayer = name)).map (·.amountVnd)).sum

/-- Total amount received by `name` across a transaction list. -/
def recvBy (name : String) (ts : List Txn) : ℤ :=
  ((ts.filter (fun t => t.toReceiver = name)).map (·.amountVnd)).sum

/-- Application of a transaction list to a balances table: a payer's
Net_Base increases by what they pay (their debt shrinks) and a receiver's
decreases by what they receive, exactly as the loop body mutates
`debtors.at[i]` and `creditors.at[j]`. -/
def applyTxns (balances : List Balance) (ts : List Txn) : List Balance :=
  balances.map (fun b =>
    { b with netBase := b.netBase + sentBy b.participant ts - recvBy b.participant ts })

/-- Modelled from the spec claim C2's words (its parenthetical direction):
subtract each transaction amount from the payer's Net_Base and add it to
the receiver's.  This is the opposite of what the source loop does to its
running balances; it is stated here only to be refuted. -/
def applyTxnsAsClaimed (balances : List Balance) (ts : List Txn) : List Balance :=
  balances.map (fun b =>
    { b with netBase := b.netBase - sentBy b.participant ts + recvBy b.participant ts })

/-! ### Helper lemmas about the settlement loop -/

theorem sentBy_nil (n : String) : sentBy n [] = 0 := rfl

theorem recvBy_nil (n : String) : recvBy n [] = 0 := rfl

theorem sentBy_cons (n : String) (t : Txn) (ts : List Txn) :
    sentBy n (t :: ts) =
      (if t.fromPayer = n then t.amountVnd else 0) + sentBy n ts := by
  by_cases h : t.fromPayer = n <;> simp [sentBy, List.filter_cons, h]

theorem recvBy_cons (n : String) (t : Txn) (ts : List Txn) :
    recvBy n (t :: ts) =
      (if t.toReceiver = n then t.amountVnd else 0) + recvBy n ts := by
  by_cases h : t.toReceiver = n <;> simp [recvBy, List.filter_cons, h]

theorem sentBy_eq_zero (n : String) (ts : List Txn)
    (h : ∀ t ∈ ts, t.fromPayer ≠ n) : sentBy n ts = 0 := by
  induction ts with
  | nil => rfl
  | cons t ts ih =>
      rw [sentBy_cons, if_neg (h t (List.mem_cons_self t ts))]
      simpa using ih (fun t' ht' => h t' (List.mem_cons_of_mem t ht'))

theorem recvBy_eq_zero (n : String) (ts : List Txn)
    (h : ∀ t ∈ ts, t.toReceiver ≠ n) : recvBy n ts = 0 := by
  induction ts with
  | nil => rfl
  | cons t ts ih =>
      rw [recvBy_cons, if_neg (h t (List.mem_cons_self t ts))]
      simpa using ih (fun t' ht' => h t' (List.mem_cons_of_mem t ht'))

/-- One unfolding step of the settlement loop with both lists nonempty. -/
theorem settleLoop_succ (eps : ℤ) (n : Nat) (d c : Balance) (ds cs : List Balance) :
    settleLoop eps (n + 1) (d :: ds) (c :: cs) =
      (let pay := min (-d.netBase) c.netBase
       let emit := pay > eps
       let dNet := if emit then d.netBase + pay else d.netBase
       let cNet := if emit then c.netBase - pay else c.netBase
       let ts : List Txn :=
         if emit then [{ fromPayer := d.participant, toReceiver := c.participant,
                         amountVnd := pay }] else []
       let ds' := if |dNet| ≤ eps then ds else { d with netBase := dNet } :: ds
       let cs' := if |cNet| ≤ eps then cs else { c with netBase := cNet } :: cs
       (ts ++ (settleLoop eps n ds' cs').1, (settleLoop eps n ds' cs').2)) := rfl

/-- Every transaction the loop emits names a debtor-list row as payer and
a creditor-list row as receiver. -/
theorem settleLoop_txn_mem (eps : ℤ) :
    ∀ (fuel : Nat) (ds cs : List Balance) (t : Txn),
      t ∈ (settleLoop eps fuel ds cs).1 →
      t.fromPayer ∈ ds.map Balance.participant ∧
        t.toReceiver ∈ cs.map Balance.participant := by
  intro fuel
  induction fuel with
  | zero =>
      intro ds cs t ht
      cases ds with
      | nil => simp [settleLoop] at ht
      | cons d ds =>
          cases cs with
          | nil => simp [settleLoop] at ht
          | cons c cs => simp [settleLoop] at ht
  | succ n ih =>
      intro ds cs t ht
      cases ds with
      | nil => simp [settleLoop] at ht
      | cons d ds =>
          cases cs with
          | nil => simp [settleLoop] at ht
          | cons c cs =>
              rw [settleLoop_succ] at ht
              simp only at ht
              rcases List.mem_append.mp ht with h1 | h2
              · by_cases hemit : min (-d.netBase) c.netBase > eps
                · rw [if_pos hemit] at h1
                  rcases List.mem_singleton.mp h1 with rfl
                  exact ⟨List.mem_cons_self _ _, List.mem_cons_self _ _⟩
                · rw [if_neg hemit] at h1
                  exact absurd h1 (List.not_mem_nil t)
              · obtain ⟨hf, hr⟩ := ih _ _ t h2
                constructor
                · by_cases hd : |if min (-d.netBase) c.netBase > eps then
                      d.netBase + min (-d.netBase) c.netBase else d.netBase| ≤ eps
                  · rw [if_pos hd] at hf
                    exact List.mem_cons_of_mem _ hf
                  · rw [if_neg hd] at hf
                    simpa using hf
                · by_cases hc : |if min (-d.netBase) c.netBase > eps then
                      c.netBase - min (-d.netBase) c.netBase else c.netBase| ≤ eps
                  · rw [if_pos hc] at hr
                    exact List.mem_cons_of_mem _ hr
                  · rw [if_neg hc] at hr
                    simpa using hr

/-- With a nonnegative tolerance, every loop iteration settles (and so
advances past) the current debtor or the current creditor, so the loop
exits within debtors + creditors iterations. -/
theorem settleLoop_completes (eps : ℤ) (heps : 0 ≤ eps) :
    ∀ (fuel : Nat) (ds cs : List Balance),
      (∀ d ∈ ds, d.netBase < 0) → (∀ c ∈ cs, 0 < c.netBase) →
      ds.length + cs.length ≤ fuel → (settleLoop eps fuel ds cs).2 = true := by
  intro fuel
  induction fuel with
  | zero =>
      intro ds cs _ _ hlen
      cases ds with
      | nil => simp [settleLoop]
      | cons d ds => simp at hlen
  | succ n ih =>
      intro ds cs hd hc hlen
      cases ds with
      | nil => simp [settleLoop]
      | cons d ds =>
          cases cs with
          | nil => simp [settleLoop]
          | cons c cs =>
              rw [settleLoop_succ]
              simp only
              have hdneg : d.netBase < 0 := hd d (List.mem_cons_self d ds)
              have hcpos : 0 < c.netBase := hc c (List.mem_cons_self c cs)
              set pay := min (-d.netBase) c.netBase with hpay
              have hpaypos : 0 < pay := by omega
              by_cases hemit : pay > eps
              · simp only [if_pos hemit]
                have hkey : d.netBase + pay = 0 ∨ c.netBase - pay = 0 := by omega
                by_cases hds : |d.netBase + pay| ≤ eps
                · simp only [if_pos hds]
                  by_cases hcs : |c.netBase - pay| ≤ eps
                  · simp only [if_pos hcs]
                    exact ih ds cs (fun x hx => hd x (List.mem_cons_of_mem d hx))
                      (fun x hx => hc x (List.mem_cons_of_mem c hx)) (by simp at hlen; omega)
                  · simp only [if_neg hcs]
                    refine ih ds _ (fun x hx => hd x (List.mem_cons_of_mem d hx)) ?_
                      (by simp at hlen ⊢; omega)
                    intro x hx
                    rcases List.mem_cons.mp hx with rfl | hx'
                    · show 0 < c.netBase - pay
                      rw [abs_le] at hcs
                      omega
                    · exact hc x (List.mem_cons_of_mem c hx')
                · simp only [if_neg hds]
                  have hds' : d.netBase + pay < 0 := by
                    rw [abs_le] at hds
                    omega
                  by_cases hcs : |c.netBase - pay| ≤ eps
                  · simp only [if_pos hcs]
                    refine ih _ cs ?_ (fun x hx => hc x (List.mem_cons_of_mem c hx))
                      (by simp at hlen ⊢; omega)
                    intro x hx
                    rcases List.mem_cons.mp hx with rfl | hx'
                    · simpa using hds'
                    · exact hd x (List.mem_cons_of_mem d hx')
                  · exfalso
                    rw [abs_le] at hds hcs
                    omega
              · simp only [if_neg hemit]
                have hmin : pay ≤ eps := by omega
                have hkey : |d.netBase| ≤ eps ∨ |c.netBase| ≤ eps := by
                  rw [abs_le, abs_le]; omega
                by_cases hds : |d.netBase| ≤ eps
                · simp only [if_pos hds]
                  by_cases hcs : |c.netBase| ≤ eps
                  · simp only [if_pos hcs]
                    exact ih ds cs (fun x hx => hd x (List.mem_cons_of_mem d hx))
                      (fun x hx => hc x (List.mem_cons_of_mem c hx)) (by simp at hlen; omega)
                  · simp only [if_neg hcs]
                    refine ih ds _ (fun x hx => hd x (List.mem_cons_of_mem d hx)) ?_
                      (by simp at hlen ⊢; omega)
                    intro x hx
                    rcases List.mem_cons.mp hx with rfl | hx'
                    · simpa using hcpos
                    · exact hc x (List.mem_cons_of_mem c hx')
                · simp only [if_neg hds]
                  rcases hkey with h | h
                  · exact absurd h hds
                  · simp only [if_pos h]
                    refine ih _ cs ?_ (fun x hx => hc x (List.mem_cons_of_mem c hx))
                      (by simp at hlen ⊢; omega)
                    intro x hx
                    rcases List.mem_cons.mp hx with rfl | hx'
                    · simpa using hdneg
                    · exact hd x (List.mem_cons_of_mem d hx')

/-! ### Rate resolver claims -/

/-- C6: for every date and every rates table, resolving the base currency
returns exactly 1.0, whether or not the table contains an explicit row
for the base currency on that date. -/
theorem c6_base_currency_rate_is_one (rates : List RateRow) (date : ℤ)
    (base : String) : getRateOnOrBefore rates date base base = .ok 1 := by
  simp [getRateOnOrBefore]

/-- C8: moving the query date later, with no rate row for the currency
dated in the half-open interval (d, d'], resolves to the same rate: the
two lookups succeed with equal values (and hence also fail together; the
error value itself records the query date, so only the successful result
is compared). -/
theorem c8_resolver_monotone_without_new_rows (rates : List RateRow)
    (c base : String) (d d' : ℤ) (hle : d ≤ d')
    (hgap : ∀ r ∈ rates, r.currency = c → ¬(d < r.date ∧ r.date ≤ d')) :
    ∀ q : ℚ, getRateOnOrBefore rates d' c base = .ok q ↔
      getRateOnOrBefore rates d c base = .ok q := by
  intro q
  unfold getRateOnOrBefore
  by_cases hb : c = base
  · simp [hb]
  · simp only [hb, if_false]
    have hfeq : rates.filter (fun r => decide (r.currency = c ∧ r.date ≤ d'))
        = rates.filter (fun r => decide (r.currency = c ∧ r.date ≤ d)) := by
      apply List.filter_congr
      intro r hr
      rcases Decidable.em (r.currency = c) with hc | hc
      · rcases Decidable.em (r.date ≤ d) with hd | hd
        · simp [hc, hd, le_trans hd hle]
        · have hd' : ¬ r.date ≤ d' := fun h =>
            (hgap r hr hc) ⟨lt_of_not_le hd, h⟩
          simp [hc, hd, hd']
      · simp [hc]
    rw [hfeq]
    cases ((rates.filter (fun r => decide (r.currency = c ∧ r.date ≤ d))).insertionSort
        (fun a b => a.date ≤ b.date)).getLast? <;> simp

/-- C8 witness at a concrete input: a USD rate dated 10, queried at dates
12 and 17 with no row in (12, 17], both resolving to 25000. -/
theorem c8_resolver_monotone_without_new_rows_witness :
    (getRateOnOrBefore [⟨10, "USD", 25000⟩] 17 "USD" "VND" = .ok 25000 ↔
      getRateOnOrBefore [⟨10, "USD", 25000⟩] 12 "USD" "VND" = .ok 25000) :=
  c8_resolver_monotone_without_new_rows [⟨10, "USD", 25000⟩] "USD" "VND" 12 17
    (by decide) (by decide) 25000

/-- C7: when a non-base currency has no rate row on or before the query
date, the resolver fails with the rate-not-found error; and any
conversion whose expense list contains a row with that currency and date
fails as a whole, with exactly an error the resolver produced for one of
its rows (propagated unmodified). -/
theorem c7_rate_not_found_fails_whole_conversion (rates : List RateRow)
    (c base : String) (d : ℤ) (hc : c ≠ base)
    (hnone : ∀ r ∈ rates, ¬(r.currency = c ∧ r.date ≤ d)) :
    getRateOnOrBefore rates d c base = .error (.rateNotFound c d) ∧
    ∀ es : List Expense, (∃ e ∈ es, e.currency = c ∧ e.date = d) →
      ∃ err : RateError, convertExpensesToBase es rates base = .error err ∧
        ∃ e2 ∈ es, getRateOnOrBefore rates e2.date e2.currency base = .error err := by
  have hres : getRateOnOrBefore rates d c base = .error (.rateNotFound c d) := by
    have hfil : rates.filter (fun r => decide (r.currency = c ∧ r.date ≤ d)) = [] := by
      rw [List.filter_eq_nil_iff]
      intro r hr
      simpa using hnone r hr
    unfold getRateOnOrBefore
    rw [if_neg hc, hfil]
    rfl
  refine ⟨hres, ?_⟩
  intro es
  induction es with
  | nil => rintro ⟨e, he, _⟩; exact absurd he (List.not_mem_nil e)
  | cons a l ih =>
      rintro ⟨e, he, hec, hed⟩
      rcases hrate : getRateOnOrBefore rates a.date a.currency base with err | v
      · refine ⟨err, ?_, a, List.mem_cons_self a l, hrate⟩
        simp [convertExpensesToBase, hrate]
        rfl
      · rcases List.mem_cons.mp he with rfl | hel
        · rw [hec, hed] at hrate
          rw [hres] at hrate
          exact absurd hrate (by simp)
        · rcases ih ⟨e, hel, hec, hed⟩ with ⟨err, herr, e2, he2, he2r⟩
          refine ⟨err, ?_, e2, List.mem_cons_of_mem a he2, he2r⟩
          simp [convertExpensesToBase, hrate, herr]
          rfl

/-- C7 witness at a concrete input: EUR has no row on or before date 5;
the resolver errors and a one-row conversion errors identically. -/
theorem c7_rate_not_found_fails_whole_conversion_witness :
    getRateOnOrBefore [⟨10, "EUR", 27000⟩] 5 "EUR" "VND"
        = .error (.rateNotFound "EUR" 5) ∧
    ∃ err : RateError,
      convertExpensesToBase [⟨"E9", 5, 4, "EUR", "Q"⟩] [⟨10, "EUR", 27000⟩] "VND"
          = .error err ∧
      ∃ e2 ∈ [Expense.mk "E9" 5 4 "EUR" "Q"],
        getRateOnOrBefore [⟨10, "EUR", 27000⟩] e2.date e2.currency "VND" = .error err := by
  have h := c7_rate_not_found_fails_whole_conversion [⟨10, "EUR", 27000⟩]
    "EUR" "VND" 5 (by decide) (by decide)
  exact ⟨h.1, h.2 [⟨"E9", 5, 4, "EUR", "Q"⟩] ⟨⟨"E9", 5, 4, "EUR", "Q"⟩, by decide, by decide⟩⟩

/-! ### Allocation claims -/

/-- C1: the code has no explicit weight_sum == 0 check and no
AllocationError.  On an expense whose only split is excluded (total
effective weight 0) the stage fails, but with the incidental pandas
IntCastingNaNError raised by casting the NaN share (0/0) to int. -/
theorem c1_zero_weight_sum_raises_cast_error :
    computeAllocations [⟨"E1", 0, 100, "VND", "AA", 100⟩]
      [⟨"E1", "AA", false, none⟩] [⟨"AA", 1⟩]
      = .error .intCastingNaN := by
  simp [computeAllocations, shareBaseOf, expenseAmountBase, weightSum, useWeight]

theorem sum_nonpos_of_all_neg (l : List ℤ) : (∀ x ∈ l, x < 0) → l.sum ≤ 0 := by
  induction l with
  | nil => intro _; simp
  | cons x xs ih =>
      intro h
      rw [List.sum_cons]
      have h1 := h x (List.mem_cons_self x xs)
      have h2 := ih (fun z hz => h z (List.mem_cons_of_mem x hz))
      omega

theorem sum_nonneg_of_all_pos (l : List ℤ) : (∀ x ∈ l, 0 < x) → 0 ≤ l.sum := by
  induction l with
  | nil => intro _; simp
  | cons x xs ih =>
      intro h
      rw [List.sum_cons]
      have h1 := h x (List.mem_cons_self x xs)
      have h2 := ih (fun z hz => h z (List.mem_cons_of_mem x hz))
      omega

theorem sum_neg_of_cons (x : ℤ) (xs : List ℤ) (h : ∀ y ∈ x :: xs, y < 0) :
    (x :: xs).sum < 0 := by
  rw [List.sum_cons]
  have h1 := h x (List.mem_cons_self x xs)
  have h2 := sum_nonpos_of_all_neg xs (fun z hz => h z (List.mem_cons_of_mem x hz))
  omega

theorem sum_pos_of_cons (x : ℤ) (xs : List ℤ) (h : ∀ y ∈ x :: xs, 0 < y) :
    0 < (x :: xs).sum := by
  rw [List.sum_cons]
  have h1 := h x (List.mem_cons_self x xs)
  have h2 := sum_nonneg_of_all_pos xs (fun z hz => h z (List.mem_cons_of_mem x hz))
  omega

theorem abs_le_zero_iff (x : ℤ) : |x| ≤ 0 ↔ x = 0 := by
  constructor
  · intro h
    rcases abs_le.mp h with ⟨h1, h2⟩
    omega
  · intro h
    rw [h]
    simp

theorem nodup_append_drop_mid {α : Type} (a : α) (l1 l2 : List α)
    (h : (l1 ++ a :: l2).Nodup) : (l1 ++ l2).Nodup := by
  rw [List.nodup_append] at h ⊢
  obtain ⟨h1, h2, hdisj⟩ := h
  exact ⟨h1, (List.nodup_cons.mp h2).2,
    fun x hx1 hx2 => hdisj hx1 (List.mem_cons_of_mem a hx2)⟩

theorem sentBy_cons_self (dp cp : String) (a : ℤ) (ts : List Txn) :
    sentBy dp (⟨dp, cp, a⟩ :: ts) = a + sentBy dp ts := by
  rw [sentBy_cons]
  simp

theorem sentBy_cons_other (n dp cp : String) (a : ℤ) (ts : List Txn)
    (h : dp ≠ n) : sentBy n (⟨dp, cp, a⟩ :: ts) = sentBy n ts := by
  rw [sentBy_cons]
  simp [h]

theorem recvBy_cons_self (dp cp : String) (a : ℤ) (ts : List Txn) :
    recvBy cp (⟨dp, cp, a⟩ :: ts) = a + recvBy cp ts := by
  rw [recvBy_cons]
  simp

theorem recvBy_cons_other (n dp cp : String) (a : ℤ) (ts : List Txn)
    (h : cp ≠ n) : recvBy n (⟨dp, cp, a⟩ :: ts) = recvBy n ts := by
  rw [recvBy_cons]
  simp [h]

/-- With eps = 0, a loop state of strictly negative debtors and strictly
positive creditors with pairwise-distinct names whose nets sum to zero is
settled exactly: every debtor ends up sending exactly its debt and every
creditor receiving exactly its credit. -/
theorem settleLoop_zero :
    ∀ (fuel : Nat) (ds cs : List Balance),
      (∀ d ∈ ds, d.netBase < 0) → (∀ c ∈ cs, 0 < c.netBase) →
      (ds.map Balance.participant ++ cs.map Balance.participant).Nodup →
      (ds.map Balance.netBase).sum + (cs.map Balance.netBase).sum = 0 →
      ds.length + cs.length ≤ fuel →
      (∀ d ∈ ds, d.netBase + sentBy d.participant (settleLoop 0 fuel ds cs).1 = 0) ∧
      (∀ c ∈ cs, c.netBase - recvBy c.participant (settleLoop 0 fuel ds cs).1 = 0) := by
  intro fuel
  induction fuel with
  | zero =>
      intro ds cs hd hc hnd hsum hlen
      cases ds with
      | nil =>
          cases cs with
          | nil => exact ⟨by simp, by simp⟩
          | cons c cs => simp at hlen
      | cons d ds => simp at hlen
  | succ n ih =>
      intro ds cs hd hc hnd hsum hlen
      cases ds with
      | nil =>
          refine ⟨by simp, ?_⟩
          intro x hxmem
          exfalso
          cases cs with
          | nil => exact absurd hxmem (List.not_mem_nil x)
          | cons c0 cs0 =>
              have hpos : 0 < (Balance.netBase c0 :: cs0.map Balance.netBase).sum := by
                apply sum_pos_of_cons
                intro y hy
                rw [← List.map_cons] at hy
                obtain ⟨b, hb, rfl⟩ := List.mem_map.mp hy
                exact hc b hb
              rw [List.map_nil, List.sum_nil, List.map_cons] at hsum
              omega
      | cons d ds =>
          cases cs with
          | nil =>
              refine ⟨?_, by simp⟩
              intro x hxmem
              exfalso
              have hneg : (Balance.netBase d :: ds.map Balance.netBase).sum < 0 := by
                apply sum_neg_of_cons
                intro y hy
                rw [← List.map_cons] at hy
                obtain ⟨b, hb, rfl⟩ := List.mem_map.mp hy
                exact hd b hb
              rw [List.map_nil, List.sum_nil, List.map_cons] at hsum
              omega
          | cons c cs =>
              have hdneg : d.netBase < 0 := hd d (List.mem_cons_self d ds)
              have hcpos : 0 < c.netBase := hc c (List.mem_cons_self c cs)
              have hd' : ∀ x ∈ ds, x.netBase < 0 :=
                fun x hx => hd x (List.mem_cons_of_mem d hx)
              have hc' : ∀ x ∈ cs, 0 < x.netBase :=
                fun x hx => hc x (List.mem_cons_of_mem c hx)
              rw [List.map_cons, List.map_cons] at hnd
              have hndA := hnd
              rw [List.cons_append, List.nodup_cons] at hnd
              obtain ⟨hdnot, hnd1⟩ := hnd
              simp only [List.mem_append, List.mem_cons, not_or] at hdnot
              obtain ⟨hdnotds, hdnec, hdnotcs⟩ := hdnot
              have hcnotcs : c.participant ∉ cs.map Balance.participant := by
                rw [List.nodup_append] at hnd1
                exact (List.nodup_cons.mp hnd1.2.1).1
              rw [List.map_cons, List.map_cons, List.sum_cons, List.sum_cons] at hsum
              rw [List.length_cons, List.length_cons] at hlen
              rw [settleLoop_succ]
              simp only
              set pay := min (-d.netBase) c.netBase with hpay
              have hemit : pay > (0 : ℤ) := by omega
              have hpayd : pay ≤ -d.netBase := by omega
              have hpayc : pay ≤ c.netBase := by omega
              simp only [if_pos hemit]
              by_cases hd0 : |d.netBase + pay| ≤ (0 : ℤ)
              · have hd0' : d.netBase + pay = 0 := (abs_le_zero_iff _).mp hd0
                simp only [if_pos hd0]
                by_cases hc0 : |c.netBase - pay| ≤ (0 : ℤ)
                · -- both the debtor and the creditor settle exactly
                  have hc0' : c.netBase - pay = 0 := (abs_le_zero_iff _).mp hc0
                  simp only [if_pos hc0]
                  obtain ⟨IH1, IH2⟩ := ih ds cs hd' hc'
                    (nodup_append_drop_mid _ _ _ hnd1) (by omega) (by omega)
                  constructor
                  · intro x hx
                    simp only [List.singleton_append]
                    rcases List.mem_cons.mp hx with rfl | hx'
                    · rw [sentBy_cons_self]
                      have hz : sentBy x.participant (settleLoop 0 n ds cs).1 = 0 := by
                        apply sentBy_eq_zero
                        intro t' ht' hcon
                        obtain ⟨hf, _⟩ := settleLoop_txn_mem 0 n ds cs t' ht'
                        rw [hcon] at hf
                        exact hdnotds hf
                      omega
                    · have hne : d.participant ≠ x.participant := fun hcon =>
                        hdnotds (hcon ▸ List.mem_map_of_mem Balance.participant hx')
                      rw [sentBy_cons_other _ _ _ _ _ hne]
                      exact IH1 x hx'
                  · intro x hx
                    simp only [List.singleton_append]
                    rcases List.mem_cons.mp hx with rfl | hx'
                    · rw [recvBy_cons_self]
                      have hz : recvBy x.participant (settleLoop 0 n ds cs).1 = 0 := by
                        apply recvBy_eq_zero
                        intro t' ht' hcon
                        obtain ⟨_, hr⟩ := settleLoop_txn_mem 0 n ds cs t' ht'
                        rw [hcon] at hr
                        exact hcnotcs hr
                      omega
                    · have hne : c.participant ≠ x.participant := fun hcon =>
                        hcnotcs (hcon ▸ List.mem_map_of_mem Balance.participant hx')
                      rw [recvBy_cons_other _ _ _ _ _ hne]
                      exact IH2 x hx'
                · -- the debtor settles exactly, the creditor keeps a remainder
                  simp only [if_neg hc0]
                  rw [abs_le_zero_iff] at hc0
                  have hcrem : 0 < c.netBase - pay := by omega
                  obtain ⟨IH1, IH2⟩ := ih ds ({ c with netBase := c.netBase - pay } :: cs)
                    hd'
                    (by
                      intro x hx
                      rcases List.mem_cons.mp hx with rfl | hx'
                      · show 0 < c.netBase - pay
                        omega
                      · exact hc' x hx')
                    (by simpa using hnd1)
                    (by
                      simp only [List.map_cons, List.sum_cons]
                      omega)
                    (by
                      simp only [List.length_cons]
                      omega)
                  constructor
                  · intro x hx
                    simp only [List.singleton_append]
                    rcases List.mem_cons.mp hx with rfl | hx'
                    · rw [sentBy_cons_self]
                      have hz : sentBy x.participant
                          (settleLoop 0 n ds ({ c with netBase := c.netBase - pay } :: cs)).1 = 0 := by
                        apply sentBy_eq_zero
                        intro t' ht' hcon
                        obtain ⟨hf, _⟩ := settleLoop_txn_mem 0 n _ _ t' ht'
                        rw [hcon] at hf
                        exact hdnotds hf
                      omega
                    · have hne : d.participant ≠ x.participant := fun hcon =>
                        hdnotds (hcon ▸ List.mem_map_of_mem Balance.participant hx')
                      rw [sentBy_cons_other _ _ _ _ _ hne]
                      exact IH1 x hx'
                  · intro x hx
                    simp only [List.singleton_append]
                    rcases List.mem_cons.mp hx with rfl | hx'
                    · rw [recvBy_cons_self]
                      have hrec := IH2 { x with netBase := x.netBase - pay }
                        (List.mem_cons_self _ _)
                      simp only at hrec
                      omega
                    · have hne : c.participant ≠ x.participant := fun hcon =>
                        hcnotcs (hcon ▸ List.mem_map_of_mem Balance.participant hx')
                      rw [recvBy_cons_other _ _ _ _ _ hne]
                      exact IH2 x (List.mem_cons_of_mem _ hx')
              · -- the creditor settles exactly, the debtor keeps a remainder
                simp only [if_neg hd0]
                rw [abs_le_zero_iff] at hd0
                have hdrem : d.netBase + pay < 0 := by omega
                have hc0 : |c.netBase - pay| ≤ (0 : ℤ) := by
                  rw [abs_le_zero_iff]
                  omega
                have hc0' : c.netBase - pay = 0 := (abs_le_zero_iff _).mp hc0
                simp only [if_pos hc0]
                have hndiii : (({ d with netBase := d.netBase + pay } :: ds).map
                    Balance.participant ++ cs.map Balance.participant).Nodup := by
                  have h0 : ((d.participant :: ds.map Balance.participant) ++
                      cs.map Balance.participant).Nodup :=
                    nodup_append_drop_mid c.participant _ _ hndA
                  simpa using h0
                obtain ⟨IH1, IH2⟩ := ih ({ d with netBase := d.netBase + pay } :: ds) cs
                  (by
                    intro x hx
                    rcases List.mem_cons.mp hx with rfl | hx'
                    · show d.netBase + pay < 0
                      omega
                    · exact hd' x hx')
                  hc'
                  hndiii
                  (by
                    simp only [List.map_cons, List.sum_cons]
                    omega)
                  (by
                    simp only [List.length_cons]
                    omega)
                constructor
                · intro x hx
                  simp only [List.singleton_append]
                  rcases List.mem_cons.mp hx with rfl | hx'
                  · rw [sentBy_cons_self]
                    have hsent := IH1 { x with netBase := x.netBase + pay }
                      (List.mem_cons_self _ _)
                    simp only at hsent
                    omega
                  · have hne : d.participant ≠ x.participant := fun hcon =>
                      hdnotds (hcon ▸ List.mem_map_of_mem Balance.participant hx')
                    rw [sentBy_cons_other _ _ _ _ _ hne]
                    exact IH1 x (List.mem_cons_of_mem _ hx')
                · intro x hx
                  simp only [List.singleton_append]
                  rcases List.mem_cons.mp hx with rfl | hx'
                  · rw [recvBy_cons_self]
                    have hz : recvBy x.participant
                        (settleLoop 0 n ({ d with netBase := d.netBase + pay } :: ds) cs).1 = 0 := by
                      apply recvBy_eq_zero
                      intro t' ht' hcon
                      obtain ⟨_, hr⟩ := settleLoop_txn_mem 0 n _ _ t' ht'
                      rw [hcon] at hr
                      exact hcnotcs hr
                    omega
                  · have hne : c.participant ≠ x.participant := fun hcon =>
                      hcnotcs (hcon ▸ List.mem_map_of_mem Balance.participant hx')
                    rw [recvBy_cons_other _ _ _ _ _ hne]
                    exact IH2 x hx'

/-- Rows with zero Net_Base contribute nothing: the debtor-partition sum
plus the creditor-partition sum equals the whole table's Net_Base sum. -/
theorem sum_net_filter_parts (b : List Balance) :
    ((b.filter (fun r => r.netBase < 0)).map Balance.netBase).sum +
      ((b.filter (fun r => 0 < r.netBase)).map Balance.netBase).sum =
      (b.map Balance.netBase).sum := by
  induction b with
  | nil => simp
  | cons x xs ih =>
      simp only [List.filter_cons, List.map_cons, List.sum_cons]
      rcases lt_trichotomy x.netBase 0 with h1 | h1 | h1
      · have h2 : ¬(0 < x.netBase) := by omega
        simp [h1, h2]
        omega
      · have h2 : ¬(x.netBase < 0) := by omega
        have h3 : ¬(0 < x.netBase) := by omega
        simp [h2, h3]
        omega
      · have h2 : ¬(x.netBase < 0) := by omega
        simp [h1, h2]
        omega

/-! ### Settlement claims -/

/-- C4 counterexample: the claim quantifies over every eps, but with
eps = -1 no advance condition `abs(net) <= eps` can ever hold, so after
len(debtors) + len(creditors) = 2 iterations the loop is still running
(in the source it never terminates: pay = min(0, c) = 0 > -1 keeps
emitting zero-amount transactions without moving either cursor). -/
theorem c4_counterexample_negative_eps :
    (computeSettlement [⟨"D1", 0, 5, -5⟩, ⟨"C1", 5, 0, 5⟩] (-1)).2 = false := by
  decide

/-- C4 amended: for every balances table and every eps ≥ 0, the main loop
of compute_settlement terminates after at most len(debtors) +
len(creditors) iterations, because every iteration advances at least one
of the two cursors. -/
theorem c4_loop_terminates_within_bound (balances : List Balance) (eps : ℤ)
    (heps : 0 ≤ eps) : (computeSettlement balances eps).2 = true := by
  unfold computeSettlement
  simp only
  apply settleLoop_completes eps heps
  · intro d hd
    have hmem : d ∈ balances.filter (fun b => b.netBase < 0) :=
      (List.mem_insertionSort _).mp hd
    have := List.mem_filter.mp hmem
    simpa using this.2
  · intro c hc
    have hmem : c ∈ balances.filter (fun b => 0 < b.netBase) :=
      (List.mem_insertionSort _).mp hc
    have := List.mem_filter.mp hmem
    simpa using this.2
  · exact le_refl _

/-- C4 witness: the amended theorem applied at a two-row table with the
default eps = 1. -/
theorem c4_loop_terminates_within_bound_witness :
    (0 : ℤ) ≤ 1 ∧
      (computeSettlement [⟨"D1", 0, 5, -5⟩, ⟨"C1", 5, 0, 5⟩] 1).2 = true :=
  ⟨by decide,
   c4_loop_terminates_within_bound [⟨"D1", 0, 5, -5⟩, ⟨"C1", 5, 0, 5⟩] 1 (by decide)⟩

/-- C9: on a balances table with pairwise-distinct participant names (the
shape compute_balances produces: one row per participant), every emitted
transaction has a payer drawn from the debtors partition (Net_Base < 0)
and a receiver drawn from the creditors partition (Net_Base > 0), and
those partitions are disjoint, so from ≠ to. -/
theorem c9_no_self_transactions (balances : List Balance) (eps : ℤ)
    (hnd : (balances.map Balance.participant).Nodup) :
    ∀ t ∈ (computeSettlement balances eps).1, t.fromPayer ≠ t.toReceiver := by
  intro t ht heq
  unfold computeSettlement at ht
  simp only at ht
  obtain ⟨hf, hr⟩ := settleLoop_txn_mem eps _ _ _ t ht
  obtain ⟨bd, hbd, hbdname⟩ := List.mem_map.mp hf
  obtain ⟨bc, hbc, hbcname⟩ := List.mem_map.mp hr
  have hbd' := List.mem_filter.mp ((List.mem_insertionSort _).mp hbd)
  have hbc' := List.mem_filter.mp ((List.mem_insertionSort _).mp hbc)
  have hdneg : bd.netBase < 0 := by simpa using hbd'.2
  have hcpos : 0 < bc.netBase := by simpa using hbc'.2
  have hsame : bd = bc := by
    apply List.inj_on_of_nodup_map hnd hbd'.1 hbc'.1
    rw [hbdname, hbcname, heq]
  rw [hsame] at hdneg
  omega

/-- C9 witness: applied at a concrete two-row table. -/
theorem c9_no_self_transactions_witness :
    ([Balance.mk "A" 0 5 (-5), Balance.mk "B" 5 0 5].map Balance.participant).Nodup ∧
      ∀ t ∈ (computeSettlement [⟨"A", 0, 5, -5⟩, ⟨"B", 5, 0, 5⟩] 1).1,
        t.fromPayer ≠ t.toReceiver :=
  ⟨by decide, c9_no_self_transactions [⟨"A", 0, 5, -5⟩, ⟨"B", 5, 0, 5⟩] 1 (by decide)⟩

/-- C2 counterexample: the claim applies transactions by subtracting each
amount from the payer's Net_Base and adding it to the receiver's.  The
loop does the opposite (a payment shrinks the payer's debt:
`debtors.at[i] += pay`), so on the table A:-5 / B:+5 with the default
eps = 1 the claim-direction application leaves A at -10 and B at +10,
far outside eps. -/
theorem c2_counterexample_direction :
    ∃ r ∈ applyTxnsAsClaimed [⟨"CA", 0, 5, -5⟩, ⟨"CB", 5, 0, 5⟩]
        (computeSettlement [⟨"CA", 0, 5, -5⟩, ⟨"CB", 5, 0, 5⟩] 1).1,
      ¬(|r.netBase| ≤ 1) := by
  decide

/-- Even with the application direction fixed and a zero-sum table, the
default eps = 1 does not drive every balance within eps: three debtors of
-1 each are treated as settled without paying, leaving the +3 creditor
untouched.  This is why the provable per-participant guarantee below is
stated at eps = 0. -/
theorem settlement_eps_one_leaves_residual :
    ∃ r ∈ applyTxns
        [⟨"RA", 0, 1, -1⟩, ⟨"RB", 0, 1, -1⟩, ⟨"RC", 0, 1, -1⟩, ⟨"RD", 3, 0, 3⟩]
        (computeSettlement
          [⟨"RA", 0, 1, -1⟩, ⟨"RB", 0, 1, -1⟩, ⟨"RC", 0, 1, -1⟩, ⟨"RD", 3, 0, 3⟩] 1).1,
      ¬(|r.netBase| ≤ 1) := by
  decide

/-- C2 amended: on a balances table with pairwise-distinct participant
names whose Net_Base column sums to zero, applying all transactions
emitted by compute_settlement(balances, 0) — adding each amount to the
payer's Net_Base and subtracting it from the receiver's, as the loop
itself updates its running balances — leaves every participant's
Net_Base exactly zero. -/
theorem c2_settlement_zeroes_balances (balances : List Balance)
    (hnd : (balances.map Balance.participant).Nodup)
    (hsum : (balances.map Balance.netBase).sum = 0) :
    ∀ r ∈ applyTxns balances (computeSettlement balances 0).1, r.netBase = 0 := by
  intro r hr
  unfold applyTxns at hr
  obtain ⟨x, hx, rfl⟩ := List.mem_map.mp hr
  show x.netBase + sentBy x.participant (computeSettlement balances 0).1
      - recvBy x.participant (computeSettlement balances 0).1 = 0
  unfold computeSettlement
  simp only
  set CL := (balances.filter (fun b => 0 < b.netBase)).insertionSort
    (fun a b => b.netBase ≤ a.netBase) with hCL
  set DL := (balances.filter (fun b => b.netBase < 0)).insertionSort
    (fun a b => a.netBase ≤ b.netBase) with hDL
  have hpermD : DL.Perm (balances.filter (fun b => b.netBase < 0)) :=
    List.perm_insertionSort _ _
  have hpermC : CL.Perm (balances.filter (fun b => 0 < b.netBase)) :=
    List.perm_insertionSort _ _
  have hD : ∀ d ∈ DL, d.netBase < 0 := by
    intro d hdm
    have := List.mem_filter.mp (hpermD.subset hdm)
    simpa using this.2
  have hC : ∀ c ∈ CL, 0 < c.netBase := by
    intro c hcm
    have := List.mem_filter.mp (hpermC.subset hcm)
    simpa using this.2
  have hmemD : ∀ y ∈ DL, y ∈ balances := fun y hy =>
    (List.mem_filter.mp (hpermD.subset hy)).1
  have hmemC : ∀ y ∈ CL, y ∈ balances := fun y hy =>
    (List.mem_filter.mp (hpermC.subset hy)).1
  have hnd2 : (DL.map Balance.participant ++ CL.map Balance.participant).Nodup := by
    rw [List.nodup_append]
    refine ⟨?_, ?_, ?_⟩
    · rw [(hpermD.map Balance.participant).nodup_iff]
      exact hnd.sublist (List.Sublist.map _ (List.filter_sublist _))
    · rw [(hpermC.map Balance.participant).nodup_iff]
      exact hnd.sublist (List.Sublist.map _ (List.filter_sublist _))
    · intro nm hnm1 hnm2
      obtain ⟨bd, hbd, hbdn⟩ := List.mem_map.mp hnm1
      obtain ⟨bc, hbc, hbcn⟩ := List.mem_map.mp hnm2
      have heq : bd = bc := List.inj_on_of_nodup_map hnd (hmemD bd hbd)
        (hmemC bc hbc) (by rw [hbdn, hbcn])
      have h1 := hD bd hbd
      have h2 := hC bc hbc
      rw [heq] at h1
      omega
  have hsum2 : (DL.map Balance.netBase).sum + (CL.map Balance.netBase).sum = 0 := by
    rw [(hpermD.map Balance.netBase).sum_eq, (hpermC.map Balance.netBase).sum_eq]
    rw [sum_net_filter_parts balances]
    exact hsum
  obtain ⟨L1, L2⟩ := settleLoop_zero (DL.length + CL.length) DL CL hD hC hnd2 hsum2
    (le_refl _)
  have hnameD : x.participant ∉ DL.map Balance.participant →
      sentBy x.participant (settleLoop 0 (DL.length + CL.length) DL CL).1 = 0 := by
    intro hnotin
    apply sentBy_eq_zero
    intro t' ht' hcon
    obtain ⟨hf, _⟩ := settleLoop_txn_mem 0 _ _ _ t' ht'
    rw [hcon] at hf
    exact hnotin hf
  have hnameC : x.participant ∉ CL.map Balance.participant →
      recvBy x.participant (settleLoop 0 (DL.length + CL.length) DL CL).1 = 0 := by
    intro hnotin
    apply recvBy_eq_zero
    intro t' ht' hcon
    obtain ⟨_, hra⟩ := settleLoop_txn_mem 0 _ _ _ t' ht'
    rw [hcon] at hra
    exact hnotin hra
  have hnotD : 0 ≤ x.netBase → x.participant ∉ DL.map Balance.participant := by
    intro hge hin
    obtain ⟨bd, hbd, hbdn⟩ := List.mem_map.mp hin
    have heq : bd = x := List.inj_on_of_nodup_map hnd (hmemD bd hbd) hx hbdn
    have h1 := hD bd hbd
    rw [heq] at h1
    omega
  have hnotC : x.netBase ≤ 0 → x.participant ∉ CL.map Balance.participant := by
    intro hle hin
    obtain ⟨bc, hbc, hbcn⟩ := List.mem_map.mp hin
    have heq : bc = x := List.inj_on_of_nodup_map hnd (hmemC bc hbc) hx hbcn
    have h1 := hC bc hbc
    rw [heq] at h1
    omega
  rcases lt_trichotomy x.netBase 0 with hneg | hzero | hpos
  · have hxD : x ∈ DL := hpermD.mem_iff.mpr
      (List.mem_filter.mpr ⟨hx, by simpa using hneg⟩)
    have h1 := L1 x hxD
    have h2 := hnameC (hnotC (by omega))
    omega
  · have h1 := hnameD (hnotD (by omega))
    have h2 := hnameC (hnotC (by omega))
    omega
  · have hxC : x ∈ CL := hpermC.mem_iff.mpr
      (List.mem_filter.mpr ⟨hx, by simpa using hpos⟩)
    have h1 := L2 x hxC
    have h2 := hnameD (hnotD (by omega))
    omega

/-- C2 witness: the amended theorem applied at a three-row balanced table
(-5, +3, +2), whose settlement at eps = 0 zeroes every row. -/
theorem c2_settlement_zeroes_balances_witness :
    (([Balance.mk "WA" 0 5 (-5), Balance.mk "WB" 3 0 3,
        Balance.mk "WC" 2 0 2].map Balance.participant).Nodup ∧
      ([Balance.mk "WA" 0 5 (-5), Balance.mk "WB" 3 0 3,
        Balance.mk "WC" 2 0 2].map Balance.netBase).sum = 0) ∧
      ∀ r ∈ applyTxns [⟨"WA", 0, 5, -5⟩, ⟨"WB", 3, 0, 3⟩, ⟨"WC", 2, 0, 2⟩]
          (computeSettlement [⟨"WA", 0, 5, -5⟩, ⟨"WB", 3, 0, 3⟩, ⟨"WC", 2, 0, 2⟩] 0).1,
        r.netBase = 0 :=
  ⟨⟨by decide, by decide⟩,
   c2_settlement_zeroes_balances [⟨"WA", 0, 5, -5⟩, ⟨"WB", 3, 0, 3⟩, ⟨"WC", 2, 0, 2⟩]
     (by decide) (by decide)⟩

/-! ### Balance claims -/

theorem lookup_map_pair (f : String → ℤ) :
    ∀ (names : List String) (n : String), n ∈ names →
      ((names.map (fun m => (m, f m))).lookup n) = some (f n) := by
  intro names
  induction names with
  | nil => intro n hn; exact absurd hn (List.not_mem_nil n)
  | cons m ms ih =>
      intro n hn
      by_cases h : n = m
      · subst h
        simp [List.lookup]
      · have hn' : n ∈ ms := by
          rcases List.mem_cons.mp hn with h' | h'
          · exact absurd h' h
          · exact h'
        have hbeq : (n == m) = false := by
          rw [beq_eq_false_iff_ne]
          exact h
        rw [List.map_cons]
        simp only [List.lookup, hbeq]
        exact ih n hn'

theorem lookup_map_pair_none (f : String → ℤ) :
    ∀ (names : List String) (n : String), n ∉ names →
      ((names.map (fun m => (m, f m))).lookup n) = none := by
  intro names
  induction names with
  | nil => intro n _; rfl
  | cons m ms ih =>
      intro n hn
      have h1 : n ≠ m := fun h => hn (h ▸ List.mem_cons_self m ms)
      have h2 : n ∉ ms := fun h => hn (List.mem_cons_of_mem m h)
      have hbeq : (n == m) = false := by
        rw [beq_eq_false_iff_ne]
        exact h1
      rw [List.map_cons]
      simp only [List.lookup, hbeq]
      exact ih n h2

/-- Looking a name up in a pandas groupby-sum, with 0 for a missing key
(the left-join plus `fillna(0)`), gives the plain filtered sum. -/
theorem groupbySum_getD {α : Type} (key : α → String) (val : α → ℤ)
    (rows : List α) (n : String) :
    ((groupbySum key val rows).lookup n).getD 0
      = ((rows.filter (fun r => key r = n)).map val).sum := by
  by_cases hmem : n ∈ (rows.map key).dedup
  · rw [groupbySum, lookup_map_pair _ _ _ hmem]
    rfl
  · rw [groupbySum, lookup_map_pair_none _ _ _ hmem]
    have hfil : rows.filter (fun r => key r = n) = [] := by
      rw [List.filter_eq_nil_iff]
      intro r hr hkey
      exact hmem (List.mem_dedup.mpr (List.mem_map.mpr ⟨r, hr, by simpa using hkey⟩))
    rw [hfil]
    rfl

theorem filter_map_row_eq {g : Participant → Balance}
    (hg : ∀ q, (g q).participant = q.name) :
    ∀ (ps : List Participant), (ps.map Participant.name).Nodup →
      ∀ p ∈ ps, (ps.map g).filter (fun b => b.participant = p.name) = [g p] := by
  intro ps
  induction ps with
  | nil => intro _ p hp; exact absurd hp (List.not_mem_nil p)
  | cons q qs ih =>
      intro hnd p hp
      rw [List.map_cons] at hnd
      obtain ⟨hqnot, hnd'⟩ := List.nodup_cons.mp hnd
      rw [List.map_cons, List.filter_cons]
      rcases List.mem_cons.mp hp with rfl | hp'
      · rw [if_pos (by simp [hg])]
        have hrest : (qs.map g).filter (fun b => b.participant = p.name) = [] := by
          rw [List.filter_eq_nil_iff]
          intro b hb
          obtain ⟨q', hq', rfl⟩ := List.mem_map.mp hb
          rw [hg q']
          intro hcon
          apply hqnot
          rw [← (by simpa using hcon : q'.name = p.name)]
          exact List.mem_map_of_mem Participant.name hq'
        rw [hrest]
      · have hne : (g q).participant ≠ p.name := by
          rw [hg q]
          intro hcon
          apply hqnot
          rw [hcon]
          exact List.mem_map_of_mem Participant.name hp'
        rw [if_neg (by simpa using hne)]
        exact ih hnd' p hp'

/-- C5: for every participant in the roster, including those with no
expenses and no allocations, compute_balances emits exactly one row, with
Paid_Base the sum of Amount_Base over the expenses they paid, Owed_Base
the sum of Share_Base over their allocations (each 0 when there are
none), and Net_Base exactly Paid_Base minus Owed_Base in integer
arithmetic.  The roster's names are pairwise distinct, as the data model
declares Name a unique key. -/
theorem c5_balances_one_row_per_participant (es : List ExpenseB)
    (allocs : List Alloc) (ps : List Participant)
    (hnd : (ps.map Participant.name).Nodup) :
    ∀ p ∈ ps,
      (computeBalances es allocs ps).filter (fun b => b.participant = p.name)
        = [{ participant := p.name,
             paidBase := ((es.filter (fun e => e.payer = p.name)).map
               ExpenseB.amountBase).sum,
             owedBase := ((allocs.filter (fun a => a.participant = p.name)).map
               Alloc.shareBase).sum,
             netBase := ((es.filter (fun e => e.payer = p.name)).map
                 ExpenseB.amountBase).sum
               - ((allocs.filter (fun a => a.participant = p.name)).map
                 Alloc.shareBase).sum }] := by
  intro p hp
  unfold computeBalances
  simp only
  rw [filter_map_row_eq (fun q => rfl) ps hnd p hp]
  rw [groupbySum_getD, groupbySum_getD]

/-- C5 witness: a two-person roster where PA paid a 100-unit expense
shared 50/50; PB has no expenses, so their row is built from the
`fillna(0)` defaults on the paid side. -/
theorem c5_balances_one_row_per_participant_witness :
    (([Participant.mk "PA" 1, Participant.mk "PB" 1].map Participant.name).Nodup ∧
      Participant.mk "PB" 1 ∈ [Participant.mk "PA" 1, Participant.mk "PB" 1]) ∧
      (computeBalances [⟨"E1", 0, 100, "VND", "PA", 100⟩]
          [⟨"E1", "PA", 50⟩, ⟨"E1", "PB", 50⟩]
          [⟨"PA", 1⟩, ⟨"PB", 1⟩]).filter (fun b => b.participant = "PB")
        = [{ participant := "PB", paidBase := 0, owedBase := 50, netBase := -50 }] := by
  refine ⟨⟨by decide, ?_⟩, ?_⟩
  · exact List.mem_cons_of_mem _ (List.mem_cons_self _ _)
  · have h := c5_balances_one_row_per_participant
      [⟨"E1", 0, 100, "VND", "PA", 100⟩]
      [⟨"E1", "PA", 50⟩, ⟨"E1", "PB", 50⟩]
      [⟨"PA", 1⟩, ⟨"PB", 1⟩]
      (by decide)
      ⟨"PB", 1⟩ (List.mem_cons_of_mem _ (List.mem_cons_self _ _))
    simpa using h

/-! ### Allocation rounding-drift claim -/

theorem cast_sum_map (g : Split → ℤ) :
    ∀ K : List Split, (((K.map g).sum : ℤ) : ℚ) = (K.map (fun s => ((g s : ℤ) : ℚ))).sum := by
  intro K
  induction K with
  | nil => simp
  | cons s K ih =>
      rw [List.map_cons, List.sum_cons, List.map_cons, List.sum_cons,
        Int.cast_add, ih]

theorem map_congr_mem {α β : Type} (f g : α → β) :
    ∀ l : List α, (∀ a ∈ l, f a = g a) → l.map f = l.map g := by
  intro l
  induction l with
  | nil => intro _; rfl
  | cons a l ih =>
      intro h
      rw [List.map_cons, List.map_cons, h a (List.mem_cons_self a l),
        ih (fun x hx => h x (List.mem_cons_of_mem a hx))]

/-- Share_Base column of one expense, extracted from the allocation
table: filtering the allocations built from all-finite shares down to one
ExpID yields exactly the rounded share of each kept split of that
expense. -/
theorem alloc_share_column (f : Split → Option ℤ) (w : Split → ℚ) (eid : String) :
    ∀ L : List Split, (∀ s ∈ L, (f s).isSome) →
      ((((L.map (fun s => (s, f s))).filter (fun r => 0 < w r.1)).filterMap
          (fun r => r.2.map (fun sb =>
            ({ expId := r.1.expId, participant := r.1.participant,
               shareBase := sb } : Alloc)))).filter
          (fun a => a.expId = eid)).map Alloc.shareBase
        = (L.filter (fun s => decide (s.expId = eid) && decide (0 < w s))).map
            (fun s => (f s).getD 0) := by
  intro L
  induction L with
  | nil => intro _; rfl
  | cons s L ih =>
      intro hall
      have hs : (f s).isSome := hall s (List.mem_cons_self s L)
      obtain ⟨v, hv⟩ := Option.isSome_iff_exists.mp hs
      have ihL := ih (fun x hx => hall x (List.mem_cons_of_mem s hx))
      by_cases h1 : 0 < w s
      · by_cases h2 : s.expId = eid
        · simp [h1, h2, hv, ihL]
        · simp [h1, h2, hv, ihL]
      · simp [h1, hv, ihL]

theorem filter_sum_eq_of_zero (φ : Split → ℚ) (p : Split → Bool) :
    ∀ L : List Split, (∀ s ∈ L, p s = false → φ s = 0) →
      ((L.filter p).map φ).sum = (L.map φ).sum := by
  intro L
  induction L with
  | nil => intro _; rfl
  | cons s L ih =>
      intro h
      have htail := ih (fun x hx hp => h x (List.mem_cons_of_mem s hx) hp)
      rw [List.filter_cons, List.map_cons, List.sum_cons]
      by_cases hp : p s
      · rw [if_pos hp, List.map_cons, List.sum_cons, htail]
      · rw [if_neg hp, htail,
          h s (List.mem_cons_self s L) (Bool.not_eq_true _ ▸ by simpa using hp)]
        rw [zero_add]

/-- Rounding each entry of a rational list to an integer moves the sum by
at most half a unit per entry. -/
theorem abs_sum_round_sub_le :
    ∀ L : List ℚ,
      |((L.map (fun q => ((roundHalfEven q : ℤ) : ℚ))).sum - L.sum)|
        ≤ (L.length : ℚ) / 2 := by
  intro L
  induction L with
  | nil => simp
  | cons q L ih =>
      rw [List.map_cons, List.sum_cons, List.sum_cons, List.length_cons]
      have h1 := roundHalfEven_err q
      have key : ((roundHalfEven q : ℤ) : ℚ)
            + (L.map (fun q => ((roundHalfEven q : ℤ) : ℚ))).sum - (q + L.sum)
          = (((roundHalfEven q : ℤ) : ℚ) - q)
            + ((L.map (fun q => ((roundHalfEven q : ℤ) : ℚ))).sum - L.sum) := by
        ring
      rw [key]
      have h3 := abs_add (((roundHalfEven q : ℤ) : ℚ) - q)
        ((L.map (fun q => ((roundHalfEven q : ℤ) : ℚ))).sum - L.sum)
      push_cast
      push_cast at ih
      linarith

/-- C3: for an expense present in the converted table whose splits all
resolve to nonnegative effective weights (weights are positive reals in
the data model), at least one positive, the Share_Base values emitted for
it sum to within 0.5 per split row of its Amount_Base: each share is
rounded independently and the drift is not redistributed. -/
theorem c3_share_sum_drift_bounded (es : List ExpenseB) (splits : List Split)
    (ps : List Participant) (eid : String) (ab : ℤ) (allocs : List Alloc)
    (hab : expenseAmountBase es eid = some ab)
    (hw : ∀ s ∈ splits, s.expId = eid → 0 ≤ useWeight ps s)
    (hpos : ∃ s ∈ splits, s.expId = eid ∧ 0 < useWeight ps s)
    (hok : computeAllocations es splits ps = .ok allocs) :
    |((((allocs.filter (fun a => a.expId = eid)).map Alloc.shareBase).sum : ℚ)
        - (ab : ℚ))|
      ≤ ((splits.filter (fun s => s.expId = eid)).length : ℚ) / 2 := by
  have hW : 0 < weightSum ps splits eid := by
    obtain ⟨s0, hs0, hs0e, hs0w⟩ := hpos
    have hmem : useWeight ps s0
        ∈ (splits.filter (fun s => s.expId = eid)).map (useWeight ps) :=
      List.mem_map_of_mem _ (List.mem_filter.mpr ⟨hs0, by simpa using hs0e⟩)
    have hnn : ∀ x ∈ (splits.filter (fun s => s.expId = eid)).map (useWeight ps),
        0 ≤ x := by
      intro x hx
      obtain ⟨s, hs, rfl⟩ := List.mem_map.mp hx
      have := List.mem_filter.mp hs
      exact hw s this.1 (by simpa using this.2)
    have := List.single_le_sum hnn _ hmem
    unfold weightSum
    calc (0 : ℚ) < useWeight ps s0 := hs0w
      _ ≤ _ := this
  have hWne : weightSum ps splits eid ≠ 0 := ne_of_gt hW
  unfold computeAllocations at hok
  simp only at hok
  split at hok
  case isFalse => exact absurd hok (by simp)
  case isTrue hall =>
      obtain rfl := Except.ok.inj hok
      have hsome : ∀ s ∈ splits, (shareBaseOf es ps splits s).isSome := by
        intro s hs
        have := List.all_eq_true.mp hall (s, shareBaseOf es ps splits s)
          (List.mem_map_of_mem _ hs)
        simpa using this
      rw [alloc_share_column (shareBaseOf es ps splits) (useWeight ps) eid splits hsome]
      set K := splits.filter
        (fun s => decide (s.expId = eid) && decide (0 < useWeight ps s)) with hK
      have hKmem : ∀ s ∈ K, s.expId = eid ∧ 0 < useWeight ps s := by
        intro s hs
        have := List.mem_filter.mp hs
        constructor
        · have h2 := this.2
          simp only [Bool.and_eq_true, decide_eq_true_eq] at h2
          exact h2.1
        · have h2 := this.2
          simp only [Bool.and_eq_true, decide_eq_true_eq] at h2
          exact h2.2
      have hshare : ∀ s ∈ K, (shareBaseOf es ps splits s).getD 0
          = roundHalfEven ((ab : ℚ) * useWeight ps s / weightSum ps splits eid) := by
        intro s hs
        obtain ⟨he, _⟩ := hKmem s hs
        unfold shareBaseOf
        rw [he, hab]
        simp only [if_neg hWne]
        rfl
      rw [map_congr_mem _ _ K hshare]
      -- the exact (unrounded) shares of the kept rows sum to Amount_Base
      have hexact : (K.map (fun s =>
          (ab : ℚ) * useWeight ps s / weightSum ps splits eid)).sum = (ab : ℚ) := by
        have hKE : K = (splits.filter (fun s => s.expId = eid)).filter
            (fun s => 0 < useWeight ps s) := by
          rw [hK, List.filter_filter]
          apply List.filter_congr
          intro s _
          simp [Bool.and_comm]
        rw [hKE]
        rw [filter_sum_eq_of_zero _ _ _ (by
          intro s hs hpf
          have hmem := List.mem_filter.mp hs
          have hge := hw s hmem.1 (by simpa using hmem.2)
          have : ¬(0 < useWeight ps s) := by simpa using hpf
          have hzero : useWeight ps s = 0 := le_antisymm (by simpa using this) hge
          rw [hzero, mul_zero, zero_div])]
        have hfac : ((splits.filter (fun s => s.expId = eid)).map (fun s =>
            (ab : ℚ) * useWeight ps s / weightSum ps splits eid)).sum
            = ((ab : ℚ) / weightSum ps splits eid)
              * ((splits.filter (fun s => s.expId = eid)).map (useWeight ps)).sum := by
          rw [← List.sum_map_mul_left]
          apply congrArg
          apply map_congr_mem
          intro s _
          ring
        rw [hfac]
        have : ((splits.filter (fun s => s.expId = eid)).map (useWeight ps)).sum
            = weightSum ps splits eid := rfl
        rw [this]
        exact div_mul_cancel₀ _ hWne
      -- cast the integer share sum into ℚ and compare with the exact shares
      have hcast : (((K.map (fun s => roundHalfEven ((ab : ℚ) * useWeight ps s
              / weightSum ps splits eid))).sum : ℤ) : ℚ)
          = ((K.map (fun s => (ab : ℚ) * useWeight ps s / weightSum ps splits eid)).map
              (fun q => ((roundHalfEven q : ℤ) : ℚ))).sum := by
        rw [List.map_map]
        exact cast_sum_map _ K
      rw [hcast]
      have hbound := abs_sum_round_sub_le
        (K.map (fun s => (ab : ℚ) * useWeight ps s / weightSum ps splits eid))
      rw [hexact] at hbound
      have hlen : K.length ≤ (splits.filter (fun s => s.expId = eid)).length := by
        have hKE : K = (splits.filter (fun s => s.expId = eid)).filter
            (fun s => 0 < useWeight ps s) := by
          rw [hK, List.filter_filter]
          apply List.filter_congr
          intro s _
          simp [Bool.and_comm]
        rw [hKE]
        exact List.length_filter_le _ _
      have hlenq : ((K.map (fun s => (ab : ℚ) * useWeight ps s
            / weightSum ps splits eid)).length : ℚ) / 2
          ≤ ((splits.filter (fun s => s.expId = eid)).length : ℚ) / 2 := by
        rw [List.length_map]
        have : (K.length : ℚ) ≤ ((splits.filter (fun s => s.expId = eid)).length : ℚ) := by
          exact_mod_cast hlen
        linarith
      exact le_trans hbound hlenq

/-- C3 witness: a 100-unit expense split 50/50 over two participants;
the share column sums to exactly 100 and the bound is 2 * 0.5 = 1. -/
theorem c3_share_sum_drift_bounded_witness :
    (expenseAmountBase [⟨"E2", 0, 100, "VND", "QA", 100⟩] "E2" = some 100 ∧
      computeAllocations [⟨"E2", 0, 100, "VND", "QA", 100⟩]
          [⟨"E2", "QA", true, some 1⟩, ⟨"E2", "QB", true, some 1⟩]
          [⟨"QA", 1⟩, ⟨"QB", 1⟩]
        = .ok [⟨"E2", "QA", 50⟩, ⟨"E2", "QB", 50⟩]) ∧
      |((((([⟨"E2", "QA", 50⟩, ⟨"E2", "QB", 50⟩] : List Alloc).filter
            (fun a => a.expId = "E2")).map Alloc.shareBase).sum : ℚ)
          - ((100 : ℤ) : ℚ))|
        ≤ ((([⟨"E2", "QA", true, some 1⟩, ⟨"E2", "QB", true, some 1⟩] : List Split).filter
            (fun s => s.expId = "E2")).length : ℚ) / 2 := by
  have hok : computeAllocations [⟨"E2", 0, 100, "VND", "QA", 100⟩]
      [⟨"E2", "QA", true, some 1⟩, ⟨"E2", "QB", true, some 1⟩]
      [⟨"QA", 1⟩, ⟨"QB", 1⟩]
      = .ok [⟨"E2", "QA", 50⟩, ⟨"E2", "QB", 50⟩] := by
    norm_num [computeAllocations, shareBaseOf, expenseAmountBase, weightSum,
      useWeight, roundHalfEven, List.filterMap]
  refine ⟨⟨rfl, hok⟩, ?_⟩
  exact c3_share_sum_drift_bounded [⟨"E2", 0, 100, "VND", "QA", 100⟩]
    [⟨"E2", "QA", true, some 1⟩, ⟨"E2", "QB", true, some 1⟩]
    [⟨"QA", 1⟩, ⟨"QB", 1⟩] "E2" 100 [⟨"E2", "QA", 50⟩, ⟨"E2", "QB", 50⟩]
    rfl
    (by
      intro s hs _
      rcases List.mem_cons.mp hs with rfl | hs'
      · norm_num [useWeight]
      · rcases List.mem_cons.mp hs' with rfl | hs''
        · norm_num [useWeight]
        · exact absurd hs'' (List.not_mem_nil s))
    (⟨⟨"E2", "QA", true, some 1⟩, List.mem_cons_self _ _,
      rfl, by norm_num [useWeight]⟩)
    hok

end TripSplitter
